import Mathlib

/-!
# Verification of the `v_escape` derive generator

A shallow embedding of `v_escape_derive/src/generator.rs`: the range/singleton
compaction algorithm `calculate_ranges` and the 256-entry classification table
built by `write_static_table`, together with proofs of the specified properties.

Machine bytes (`u8`) are modelled as `Nat`; the inputs of interest are strictly
ascending lists of values `≤ 255`, so no arithmetic overflows occur.  Rust
panics (`assert_ne!` / `assert_eq!`) are modelled by an `Option` result.
-/

namespace VEscape

/-- End flag for indicate more escapes than ranges (`FLAG` in `generator.rs`). -/
def FLAG : Nat := 128

/-- A comparison group of the compacted encoding: a contiguous byte range
(tested with two compares) or a single byte (tested with one equality). -/
inductive Group
  | range (lo hi : Nat)
  | singleton (v : Nat)
deriving DecidableEq

/-- Raw bytes of one group: a range is serialized as `[lo, hi]`, a singleton as `[v]`. -/
def groupBytes : Group → List Nat
  | .range lo hi => [lo, hi]
  | .singleton v => [v]

/-- Whether a group is a `Range`. -/
def isRange : Group → Bool
  | .range _ _ => true
  | .singleton _ => false

/-- Flatten groups to the raw byte encoding, appending the `FLAG` sentinel iff `s`. -/
def serialize (gs : List Group) (s : Bool) : List Nat :=
  (gs.map groupBytes).flatten ++ (if s then [FLAG] else [])

/-- The break-point list `d` of `calculate_ranges`: every position `i` with
`pairs[i + 1].char - pairs[i].char > 1`, paired with that width, in increasing
position order (the source builds it with a `for` loop over `0..len`). -/
def breakPoints (ps : List Nat) : List (Nat × Nat) :=
  (List.range (ps.length - 1)).filterMap fun i =>
    if 1 < ps.getD (i + 1) 0 - ps.getD i 0 then some (i, ps.getD (i + 1) 0 - ps.getD i 0)
    else none

/-- Deterministic refinement of the source's `d.sort_unstable_by(|a, b| b.1.cmp(&a.1))`:
sort descending by gap width.  The source leaves the relative order of equal
widths unspecified; this model fixes one admissible order. -/
def sortByWidthDesc (l : List (Nat × Nat)) : List (Nat × Nat) :=
  List.insertionSort (fun a b => b.2 ≤ a.2) l

/-- `push_1_ranges_2_escape_at_first` of `generator.rs` (bytes
`[p[last+1], p[len], p[0], p[first+1], FLAG]`), as groups plus sentinel flag. -/
def push_1_ranges_2_escape_at_first (ps : List Nat) (first last len : Nat) :
    List Group × Bool :=
  ([.range (ps.getD (last + 1) 0) (ps.getD len 0),
    .singleton (ps.getD 0 0), .singleton (ps.getD (first + 1) 0)], true)

/-- `push_1_ranges_2_escape_at_last` of `generator.rs` (bytes
`[p[0], p[first], p[last], p[len], FLAG]`). -/
def push_1_ranges_2_escape_at_last (ps : List Nat) (first last len : Nat) :
    List Group × Bool :=
  ([.range (ps.getD 0 0) (ps.getD first 0),
    .singleton (ps.getD last 0), .singleton (ps.getD len 0)], true)

/-- `push_1_ranges_2_escape_at_first_last` of `generator.rs` (bytes
`[p[first+1], p[last], p[0], p[len], FLAG]`). -/
def push_1_ranges_2_escape_at_first_last (ps : List Nat) (first last len : Nat) :
    List Group × Bool :=
  ([.range (ps.getD (first + 1) 0) (ps.getD last 0),
    .singleton (ps.getD 0 0), .singleton (ps.getD len 0)], true)

/-- `push_2_ranges_1_escape` of `generator.rs` (bytes
`[p[0], p[first], p[last+1], p[len], p[first+1]]`, no sentinel). -/
def push_2_ranges_1_escape (ps : List Nat) (first last len : Nat) :
    List Group × Bool :=
  ([.range (ps.getD 0 0) (ps.getD first 0),
    .range (ps.getD (last + 1) 0) (ps.getD len 0),
    .singleton (ps.getD (first + 1) 0)], false)

/-- `push_2_ranges_1_escape_at_first` of `generator.rs` (bytes
`[p[first+1], p[last], p[last+1], p[len], p[0]]`, no sentinel). -/
def push_2_ranges_1_escape_at_first (ps : List Nat) (first last len : Nat) :
    List Group × Bool :=
  ([.range (ps.getD (first + 1) 0) (ps.getD last 0),
    .range (ps.getD (last + 1) 0) (ps.getD len 0),
    .singleton (ps.getD 0 0)], false)

/-- `push_2_ranges_1_escape_at_last` of `generator.rs` (bytes
`[p[0], p[first], p[first+1], p[last], p[len]]`, no sentinel). -/
def push_2_ranges_1_escape_at_last (ps : List Nat) (first last len : Nat) :
    List Group × Bool :=
  ([.range (ps.getD 0 0) (ps.getD first 0),
    .range (ps.getD (first + 1) 0) (ps.getD last 0),
    .singleton (ps.getD len 0)], false)

/-- `push_3_ranges` of `generator.rs` (bytes
`[p[0], p[first], p[first+1], p[last], p[last+1], p[len]]`, no sentinel). -/
def push_3_ranges (ps : List Nat) (first last len : Nat) : List Group × Bool :=
  ([.range (ps.getD 0 0) (ps.getD first 0),
    .range (ps.getD (first + 1) 0) (ps.getD last 0),
    .range (ps.getD (last + 1) 0) (ps.getD len 0)], false)

/-- The branch tree of `calculate_ranges` (lines 217-239 of `generator.rs`) once the
two selected break points have been sorted by position into `first < last`. -/
def dispatchTwoBreaks (ps : List Nat) (first last len : Nat) : List Group × Bool :=
  if first + 1 = last then
    if first = 0 then push_1_ranges_2_escape_at_first ps first last len
    else if last + 1 = len then push_1_ranges_2_escape_at_last ps first last len
    else push_2_ranges_1_escape ps first last len
  else
    if first = 0 then
      if last + 1 = len then push_1_ranges_2_escape_at_first_last ps first last len
      else push_2_ranges_1_escape_at_first ps first last len
    else if last + 1 = len then push_2_ranges_1_escape_at_last ps first last len
    else push_3_ranges ps first last len

/-- `calculate_ranges` of `generator.rs`, lifted to tagged comparison groups plus a
sentinel flag; the raw byte output is `serialize` of this (see `calculate_ranges`),
and each branch's serialization is byte-for-byte the source's pushes.  `none`
models a failed assertion.  A pair is represented by its byte value (`char`);
`calculate_ranges` reads nothing else of a pair.  In the source `len` is rebound
to `pairs.len() - 1` after the singleton check; here it appears as
`ps.length - 1`.  The two-element `sort_unstable_by_key(|d| d.0)` is the
conditional swap on `p0.1 ≤ p1.1`. -/
def calculate_groups (ps : List Nat) : Option (List Group × Bool) :=
  if ps.length = 0 then none
  else if ps.length = 1 then some ([.singleton (ps.getD 0 0)], true)
  else
    match sortByWidthDesc (breakPoints ps) with
    | [] => some ([.range (ps.getD 0 0) (ps.getD (ps.length - 1) 0)], false)
    | [p] =>
      if ps.length - 1 = 1 then
        some ([.singleton (ps.getD 0 0), .singleton (ps.getD (ps.length - 1) 0)], true)
      else if p.1 = 0 then
        some ([.range (ps.getD (p.1 + 1) 0) (ps.getD (ps.length - 1) 0),
               .singleton (ps.getD 0 0)], false)
      else if p.1 + 1 = ps.length - 1 then
        some ([.range (ps.getD 0 0) (ps.getD p.1 0), .singleton (ps.getD (p.1 + 1) 0)], false)
      else
        some ([.range (ps.getD 0 0) (ps.getD p.1 0),
               .range (ps.getD (p.1 + 1) 0) (ps.getD (ps.length - 1) 0)], false)
    | p0 :: p1 :: _ =>
      if ps.length - 1 ≤ 2 then
        if ps.length - 1 = 2 then some (ps.map Group.singleton, true) else none
      else if p0.1 ≤ p1.1 then
        some (dispatchTwoBreaks ps p0.1 p1.1 (ps.length - 1))
      else
        some (dispatchTwoBreaks ps p1.1 p0.1 (ps.length - 1))

/-- The raw byte vector returned by `calculate_ranges` of `generator.rs`
(`none` models a failed assertion). -/
def calculate_ranges (ps : List Nat) : Option (List Nat) :=
  (calculate_groups ps).map fun x => serialize x.1 x.2

/-- Precondition of the compactor: non-empty, strictly ascending bytes in `0..=255`. -/
def Valid (ps : List Nat) : Prop :=
  ps ≠ [] ∧ List.Chain' (· < ·) ps ∧ ∀ b ∈ ps, b ≤ 255

instance : DecidablePred Valid := fun ps =>
  decidable_of_iff (ps ≠ [] ∧ ps.Pairwise (· < ·) ∧ ∀ b ∈ ps, b ≤ 255)
    (by rw [Valid, List.chain'_iff_pairwise])

/-- The byte outputs of every unit test of `generator.rs` (`mod test`), reproduced
by the embedding: evidence that `calculate_groups`/`serialize` is byte-faithful
to the source's pushes. -/
theorem calculate_ranges_matches_source_tests :
    calculate_ranges [0] = some [0, 128] ∧
    calculate_ranges [0, 2] = some [0, 2, 128] ∧
    calculate_ranges [0, 2, 4] = some [0, 2, 4, 128] ∧
    calculate_ranges [0, 1] = some [0, 1] ∧
    calculate_ranges [0, 1, 3, 4] = some [0, 1, 3, 4] ∧
    calculate_ranges [0, 1, 3, 4, 6, 7] = some [0, 1, 3, 4, 6, 7] ∧
    calculate_ranges [0, 1, 3, 5, 7, 9, 50, 52, 55, 60, 61, 62, 63, 64, 126, 127] =
      some [0, 9, 50, 64, 126, 127] ∧
    calculate_ranges [0, 1, 3] = some [0, 1, 3] ∧
    calculate_ranges [0, 2, 3] = some [2, 3, 0] ∧
    calculate_ranges [0, 1, 2, 4] = some [0, 2, 4] ∧
    calculate_ranges [50, 51, 52, 53, 54, 55, 67] = some [50, 55, 67] ∧
    calculate_ranges [0, 1, 3, 4, 6] = some [0, 1, 3, 4, 6] ∧
    calculate_ranges [0, 4, 5, 7, 8] = some [4, 5, 7, 8, 0] ∧
    calculate_ranges [14, 15, 16, 50, 51, 52, 98] = some [14, 16, 50, 52, 98] ∧
    calculate_ranges [14, 15, 16, 17, 18, 19, 50, 51, 52, 53, 54, 55, 56, 57, 58, 98] =
      some [14, 19, 50, 58, 98] ∧
    calculate_ranges [14, 16, 50, 51, 52, 98] = some [14, 16, 50, 52, 98] ∧
    calculate_ranges [14, 16, 17, 18, 19, 50, 52, 53, 56, 57, 58, 98] =
      some [14, 19, 50, 58, 98] ∧
    calculate_ranges [60, 61, 65, 80, 81] = some [60, 61, 80, 81, 65] ∧
    calculate_ranges [52, 53, 56, 58, 60, 61, 62, 80, 101, 102, 103, 104, 105, 108, 110, 120] =
      some [52, 62, 101, 120, 80] ∧
    calculate_ranges [0, 1, 4, 6] = some [0, 1, 4, 6, 128] ∧
    calculate_ranges [0, 1, 2, 3, 4, 5, 6, 7, 8, 9, 10, 11, 12, 13, 14, 73, 127] =
      some [0, 14, 73, 127, 128] ∧
    calculate_ranges [0, 2, 5, 6] = some [5, 6, 0, 2, 128] ∧
    calculate_ranges [0, 2, 5, 6, 7, 8, 9, 10, 11, 12, 13, 14, 15, 16, 17, 18] =
      some [5, 18, 0, 2, 128] ∧
    calculate_ranges [0, 2, 3, 8] = some [2, 3, 0, 8, 128] ∧
    calculate_ranges [0, 2, 3, 4, 5, 6, 7, 8, 9, 10, 11, 12, 13, 14, 15, 16, 17, 127] =
      some [2, 17, 0, 127, 128] := by
  decide

/-- Membership of a byte in a comparison group, as the vectorized kernel tests it. -/
def coveredBy (b : Nat) : Group → Prop
  | .range lo hi => lo ≤ b ∧ b ≤ hi
  | .singleton v => b = v

instance (b : Nat) (g : Group) : Decidable (coveredBy b g) := by
  cases g <;> (unfold coveredBy; infer_instance)

/-- Strictly ascending pair bytes are strictly monotone in the index. -/
theorem getD_strict_mono {ps : List Nat} (hs : List.Chain' (· < ·) ps) {i j : Nat}
    (hij : i < j) (hj : j < ps.length) : ps.getD i 0 < ps.getD j 0 := by
  have hp : ps.Pairwise (· < ·) := List.chain'_iff_pairwise.mp hs
  rw [List.pairwise_iff_getElem] at hp
  rw [List.getD_eq_getElem _ _ (lt_trans hij hj), List.getD_eq_getElem _ _ hj]
  exact hp i j (lt_trans hij hj) hj hij

/-- Ascending pair bytes are monotone in the index. -/
theorem getD_mono {ps : List Nat} (hs : List.Chain' (· < ·) ps) {i j : Nat}
    (hij : i ≤ j) (hj : j < ps.length) : ps.getD i 0 ≤ ps.getD j 0 := by
  rcases Nat.eq_or_lt_of_le hij with rfl | h
  · exact le_refl _
  · exact le_of_lt (getD_strict_mono hs h hj)

/-- An in-bounds `getD` is a member of the list. -/
theorem getD_mem_self {ps : List Nat} {j : Nat} (h : j < ps.length) : ps.getD j 0 ∈ ps := by
  rw [List.getD_eq_getElem _ _ h]
  exact List.getElem_mem h

/-- Variant of `getD_mem_self` in the `getElem?` normal form produced by `simp`. -/
theorem getElemD_mem {ps : List Nat} {j : Nat} (h : j < ps.length) :
    (ps[j]?).getD 0 ∈ ps := by
  rw [List.getElem?_eq_getElem h]
  exact List.getElem_mem h

/-- What membership in the break-point list `d` means. -/
theorem mem_breakPoints {ps : List Nat} {x : Nat × Nat} (h : x ∈ breakPoints ps) :
    x.1 + 1 ≤ ps.length - 1 ∧ x.2 = ps.getD (x.1 + 1) 0 - ps.getD x.1 0 ∧ 1 < x.2 := by
  unfold breakPoints at h
  rw [List.mem_filterMap] at h
  obtain ⟨a, ha, hfa⟩ := h
  rw [List.mem_range] at ha
  split at hfa
  next hc =>
    injection hfa with h2
    subst h2
    exact ⟨by omega, rfl, hc⟩
  next => exact Option.noConfusion hfa

/-- Break points are listed with strictly increasing positions. -/
theorem breakPoints_pairwise (ps : List Nat) :
    (breakPoints ps).Pairwise fun a b => a.1 < b.1 := by
  unfold breakPoints
  refine List.Pairwise.filterMap _ ?_ (List.pairwise_lt_range _)
  intro a a' hlt b hb b' hb'
  split at hb
  next =>
    injection hb with h2
    subst h2
    split at hb'
    next =>
      injection hb' with h3
      subst h3
      exact hlt
    next => exact Option.noConfusion hb'
  next => exact Option.noConfusion hb

/-- The width sort is a permutation of the break-point list. -/
theorem sortByWidthDesc_perm (l : List (Nat × Nat)) : (sortByWidthDesc l).Perm l :=
  List.perm_insertionSort _ l

/-- The width sort is descending in the gap width. -/
theorem sortByWidthDesc_sorted (l : List (Nat × Nat)) :
    (sortByWidthDesc l).Pairwise fun a b => b.2 ≤ a.2 := by
  haveI : IsTotal (Nat × Nat) fun a b => b.2 ≤ a.2 := ⟨fun a b => le_total b.2 a.2⟩
  haveI : IsTrans (Nat × Nat) fun a b => b.2 ≤ a.2 :=
    ⟨fun _ _ _ h1 h2 => le_trans h2 h1⟩
  exact List.sorted_insertionSort _ l

/-- The first two elements of the width-sorted break-point list are break points at
distinct positions whose widths dominate every other break point's width. -/
theorem selection_facts {ps : List Nat} {p0 p1 : Nat × Nat} {rest : List (Nat × Nat)}
    (h : sortByWidthDesc (breakPoints ps) = p0 :: p1 :: rest) :
    p0 ∈ breakPoints ps ∧ p1 ∈ breakPoints ps ∧ p0.1 ≠ p1.1 ∧
      ∀ x ∈ breakPoints ps, x.1 ≠ p0.1 → x.1 ≠ p1.1 → x.2 ≤ p0.2 ∧ x.2 ≤ p1.2 := by
  have hperm := sortByWidthDesc_perm (breakPoints ps)
  rw [h] at hperm
  have hsorted := sortByWidthDesc_sorted (breakPoints ps)
  rw [h] at hsorted
  have hmem0 : p0 ∈ breakPoints ps := hperm.mem_iff.mp (by simp)
  have hmem1 : p1 ∈ breakPoints ps := hperm.mem_iff.mp (by simp)
  have hpw : (breakPoints ps).Pairwise fun a b => a.1 ≠ b.1 :=
    (breakPoints_pairwise ps).imp fun h => Nat.ne_of_lt h
  have hpw2 : (p0 :: p1 :: rest).Pairwise fun a b => a.1 ≠ b.1 :=
    ((hperm.pairwise_iff fun h => h.symm).mpr) hpw
  refine ⟨hmem0, hmem1, ?_, ?_⟩
  · exact (List.pairwise_cons.mp hpw2).1 p1 (by simp)
  · intro x hx hne0 hne1
    have hx' : x ∈ p0 :: p1 :: rest := hperm.mem_iff.mpr hx
    simp only [List.mem_cons] at hx'
    rcases hx' with rfl | rfl | hx'
    · exact absurd rfl hne0
    · exact absurd rfl hne1
    constructor
    · exact (List.pairwise_cons.mp hsorted).1 x (by simp [hx'])
    · exact (List.pairwise_cons.mp (List.pairwise_cons.mp hsorted).2).1 x hx'

/-- A byte at an index inside a run interval is covered by the run's range group. -/
theorem coveredBy_range {ps : List Nat} (hs : List.Chain' (· < ·) ps) {a j b : Nat}
    (h1 : a ≤ j) (h2 : j ≤ b) (h3 : b < ps.length) :
    coveredBy (ps.getD j 0) (.range (ps.getD a 0) (ps.getD b 0)) :=
  ⟨getD_mono hs h1 (lt_of_le_of_lt h2 h3), getD_mono hs h2 h3⟩

/-- There are at most `pairs.len() - 1` break points (one candidate per gap). -/
theorem breakPoints_length_le (ps : List Nat) :
    (breakPoints ps).length ≤ ps.length - 1 := by
  have h1 := List.length_filterMap_le
    (fun i => if 1 < ps.getD (i + 1) 0 - ps.getD i 0 then
      some (i, ps.getD (i + 1) 0 - ps.getD i 0) else none)
    (List.range (ps.length - 1))
  unfold breakPoints
  simpa using h1

/-- Exhaustive description of the outcomes of `calculate_groups` on a valid
input, mirroring the case dispatch of `calculate_ranges` on the number of
break points. -/
theorem calculate_groups_shape (ps : List Nat) (hv : Valid ps) (gs : List Group)
    (s : Bool) (hg : calculate_groups ps = some (gs, s)) :
    (ps.length = 1 ∧ gs = [.singleton (ps.getD 0 0)] ∧ s = true) ∨
    (2 ≤ ps.length ∧ breakPoints ps = [] ∧
      gs = [.range (ps.getD 0 0) (ps.getD (ps.length - 1) 0)] ∧ s = false) ∨
    (ps.length = 2 ∧ (breakPoints ps).length = 1 ∧
      gs = [.singleton (ps.getD 0 0), .singleton (ps.getD 1 0)] ∧ s = true) ∨
    (2 < ps.length ∧ ∃ i w, breakPoints ps = [(i, w)] ∧
      ((i = 0 ∧ gs = [.range (ps.getD 1 0) (ps.getD (ps.length - 1) 0),
                      .singleton (ps.getD 0 0)] ∧ s = false) ∨
       (i ≠ 0 ∧ i + 1 = ps.length - 1 ∧
         gs = [.range (ps.getD 0 0) (ps.getD i 0), .singleton (ps.getD (i + 1) 0)] ∧
         s = false) ∨
       (i ≠ 0 ∧ i + 1 ≠ ps.length - 1 ∧
         gs = [.range (ps.getD 0 0) (ps.getD i 0),
               .range (ps.getD (i + 1) 0) (ps.getD (ps.length - 1) 0)] ∧
         s = false))) ∨
    (ps.length = 3 ∧ 2 ≤ (breakPoints ps).length ∧
      gs = ps.map Group.singleton ∧ s = true) ∨
    (3 < ps.length ∧ 2 ≤ (breakPoints ps).length ∧ ∃ first wf last wl,
      (first, wf) ∈ breakPoints ps ∧ (last, wl) ∈ breakPoints ps ∧ first < last ∧
      (∀ x ∈ breakPoints ps, x.1 ≠ first → x.1 ≠ last → x.2 ≤ wf ∧ x.2 ≤ wl) ∧
      (gs, s) = dispatchTwoBreaks ps first last (ps.length - 1)) := by
  have hne : ps.length ≠ 0 := fun h => hv.1 (List.length_eq_zero.mp h)
  unfold calculate_groups at hg
  rw [if_neg hne] at hg
  by_cases h1 : ps.length = 1
  · rw [if_pos h1] at hg
    simp only [Option.some.injEq, Prod.mk.injEq] at hg
    obtain ⟨rfl, rfl⟩ := hg
    exact Or.inl ⟨h1, rfl, rfl⟩
  rw [if_neg h1] at hg
  rcases hsort : sortByWidthDesc (breakPoints ps) with _ | ⟨p0, _ | ⟨p1, rest⟩⟩ <;>
    simp only [hsort] at hg
  · have hbp : breakPoints ps = [] := by
      have hperm := sortByWidthDesc_perm (breakPoints ps)
      rw [hsort] at hperm
      exact List.Perm.eq_nil hperm.symm
    simp only [Option.some.injEq, Prod.mk.injEq] at hg
    obtain ⟨rfl, rfl⟩ := hg
    exact Or.inr (Or.inl ⟨by omega, hbp, rfl, rfl⟩)
  · have hbp : breakPoints ps = [p0] := by
      have hperm := sortByWidthDesc_perm (breakPoints ps)
      rw [hsort] at hperm
      exact List.perm_singleton.mp hperm.symm
    obtain ⟨i, w⟩ := p0
    by_cases h2 : ps.length - 1 = 1
    · rw [if_pos h2] at hg
      simp only [Option.some.injEq, Prod.mk.injEq] at hg
      obtain ⟨rfl, rfl⟩ := hg
      refine Or.inr (Or.inr (Or.inl ⟨by omega, by rw [hbp]; rfl, ?_, rfl⟩))
      have : ps.length - 1 = 1 := h2
      simp only [show ps.length - 1 = 1 from h2]
    · rw [if_neg h2] at hg
      have h3 : 2 < ps.length := by omega
      by_cases h4 : i = 0
      · rw [if_pos (show (i, w).1 = 0 from h4)] at hg
        simp only [Option.some.injEq, Prod.mk.injEq] at hg
        obtain ⟨rfl, rfl⟩ := hg
        exact Or.inr (Or.inr (Or.inr (Or.inl ⟨h3, i, w, hbp,
          Or.inl ⟨h4, by rw [h4], rfl⟩⟩)))
      · rw [if_neg (show ¬(i, w).1 = 0 from h4)] at hg
        by_cases h5 : i + 1 = ps.length - 1
        · rw [if_pos (show (i, w).1 + 1 = ps.length - 1 from h5)] at hg
          simp only [Option.some.injEq, Prod.mk.injEq] at hg
          obtain ⟨rfl, rfl⟩ := hg
          exact Or.inr (Or.inr (Or.inr (Or.inl ⟨h3, i, w, hbp,
            Or.inr (Or.inl ⟨h4, h5, rfl, rfl⟩)⟩)))
        · rw [if_neg (show ¬(i, w).1 + 1 = ps.length - 1 from h5)] at hg
          simp only [Option.some.injEq, Prod.mk.injEq] at hg
          obtain ⟨rfl, rfl⟩ := hg
          exact Or.inr (Or.inr (Or.inr (Or.inl ⟨h3, i, w, hbp,
            Or.inr (Or.inr ⟨h4, h5, rfl, rfl⟩)⟩)))
  · have hlen2 : 2 ≤ (breakPoints ps).length := by
      have hperm := sortByWidthDesc_perm (breakPoints ps)
      rw [hsort] at hperm
      have := hperm.length_eq
      simp at this
      omega
    obtain ⟨hmem0, hmem1, hne01, hdom⟩ := selection_facts hsort
    by_cases h2 : ps.length - 1 ≤ 2
    · rw [if_pos h2] at hg
      have hle := breakPoints_length_le ps
      rw [if_pos (by omega)] at hg
      simp only [Option.some.injEq, Prod.mk.injEq] at hg
      obtain ⟨rfl, rfl⟩ := hg
      exact Or.inr (Or.inr (Or.inr (Or.inr (Or.inl ⟨by omega, hlen2, rfl, rfl⟩))))
    · rw [if_neg h2] at hg
      refine Or.inr (Or.inr (Or.inr (Or.inr (Or.inr ⟨by omega, hlen2, ?_⟩))))
      by_cases h4 : p0.1 ≤ p1.1
      · rw [if_pos h4] at hg
        refine ⟨p0.1, p0.2, p1.1, p1.2, by rwa [Prod.mk.eta], by rwa [Prod.mk.eta],
          by omega, ?_, (Option.some.inj hg).symm⟩
        intro x hx hxne0 hxne1
        exact hdom x hx hxne0 hxne1
      · rw [if_neg h4] at hg
        refine ⟨p1.1, p1.2, p0.1, p0.2, by rwa [Prod.mk.eta], by rwa [Prod.mk.eta],
          by omega, ?_, (Option.some.inj hg).symm⟩
        intro x hx hxne1 hxne0
        exact (hdom x hx hxne0 hxne1).symm

/-- Every branch of the two-break dispatch emits exactly 3 comparison groups. -/
theorem dispatchTwoBreaks_length (ps : List Nat) (first last len : Nat) :
    (dispatchTwoBreaks ps first last len).1.length = 3 := by
  unfold dispatchTwoBreaks
  split
  · split
    · simp [push_1_ranges_2_escape_at_first]
    · split
      · simp [push_1_ranges_2_escape_at_last]
      · simp [push_2_ranges_1_escape]
  · split
    · split
      · simp [push_1_ranges_2_escape_at_first_last]
      · simp [push_2_ranges_1_escape_at_first]
    · split
      · simp [push_2_ranges_1_escape_at_last]
      · simp [push_3_ranges]

/-- **C9**: the compactor asserts (fails) on the empty pair list and succeeds,
triggering no assertion, on every valid input. -/
theorem c9_empty_fails_valid_succeeds :
    calculate_ranges [] = none ∧
      ∀ ps : List Nat, Valid ps → (calculate_ranges ps).isSome := by
  refine ⟨rfl, fun ps hv => ?_⟩
  have hne : ps.length ≠ 0 := fun h => hv.1 (List.length_eq_zero.mp h)
  rw [calculate_ranges, Option.isSome_map']
  unfold calculate_groups
  rw [if_neg hne]
  by_cases h1 : ps.length = 1
  · rw [if_pos h1]
    simp
  rw [if_neg h1]
  rcases hsort : sortByWidthDesc (breakPoints ps) with _ | ⟨p0, _ | ⟨p1, rest⟩⟩ <;>
    simp only [hsort]
  · simp
  · split
    · simp
    · split
      · simp
      · split <;> simp
  · by_cases h2 : ps.length - 1 ≤ 2
    · rw [if_pos h2]
      have hlen2 : 2 ≤ (breakPoints ps).length := by
        have hperm := sortByWidthDesc_perm (breakPoints ps)
        rw [hsort] at hperm
        have := hperm.length_eq
        simp at this
        omega
      have hle := breakPoints_length_le ps
      rw [if_pos (by omega)]
      simp
    · rw [if_neg h2]
      split <;> simp

/-- **C9** witness at concrete inputs. -/
theorem c9_empty_fails_valid_succeeds_witness :
    Valid [0, 5] ∧ calculate_ranges [] = none ∧ (calculate_ranges [0, 5]).isSome :=
  ⟨by decide, c9_empty_fails_valid_succeeds.1,
    c9_empty_fails_valid_succeeds.2 [0, 5] (by decide)⟩

/-- **C3**: the compactor never returns more than 3 comparison groups, for any
valid non-empty sorted unique input. -/
theorem c3_group_budget (ps : List Nat) (hv : Valid ps) (gs : List Group) (s : Bool)
    (hg : calculate_groups ps = some (gs, s)) : gs.length ≤ 3 := by
  rcases calculate_groups_shape ps hv gs s hg with
    ⟨_, rfl, _⟩ | ⟨_, _, rfl, _⟩ | ⟨_, _, rfl, _⟩ |
    ⟨_, i, w, _, ⟨_, rfl, _⟩ | ⟨_, _, rfl, _⟩ | ⟨_, _, rfl, _⟩⟩ |
    ⟨hlen, _, rfl, _⟩ | ⟨_, _, first, wf, last, wl, _, _, _, _, hgs⟩
  · simp
  · simp
  · simp
  · simp
  · simp
  · simp
  · simp [List.length_map, hlen]
  · have : gs = (dispatchTwoBreaks ps first last (ps.length - 1)).1 := by
      rw [← hgs]
    rw [this, dispatchTwoBreaks_length]

/-- **C3** witness at a concrete valid input. -/
theorem c3_group_budget_witness :
    Valid [0, 2, 5, 6] ∧
      calculate_groups [0, 2, 5, 6] =
        some ([.range 5 6, .singleton 0, .singleton 2], true) ∧
      ([Group.range 5 6, .singleton 0, .singleton 2] : List Group).length ≤ 3 :=
  ⟨by decide, by decide,
    c3_group_budget [0, 2, 5, 6] (by decide)
      [.range 5 6, .singleton 0, .singleton 2] true (by decide)⟩

/-- In every two-break dispatch branch, the byte at each pair index `j ≤ len` is
covered by one of the emitted groups. -/
theorem dispatchTwoBreaks_covers {ps : List Nat} (hs : List.Chain' (· < ·) ps)
    {first last len j : Nat} (hfl : first < last) (hlast : last < len)
    (hlen : len < ps.length) (hj : j ≤ len) :
    ∃ g ∈ (dispatchTwoBreaks ps first last len).1, coveredBy (ps.getD j 0) g := by
  unfold dispatchTwoBreaks
  split
  next hc1 =>
    split
    next hc2 =>
      rcases Nat.lt_or_ge j (last + 1) with hj1 | hj1
      · rcases Nat.eq_zero_or_pos j with rfl | hj0
        · exact ⟨.singleton (ps.getD 0 0),
            by simp [push_1_ranges_2_escape_at_first], rfl⟩
        · have : j = first + 1 := by omega
          subst this
          exact ⟨.singleton (ps.getD (first + 1) 0),
            by simp [push_1_ranges_2_escape_at_first], rfl⟩
      · exact ⟨.range (ps.getD (last + 1) 0) (ps.getD len 0),
          by simp [push_1_ranges_2_escape_at_first],
          coveredBy_range hs hj1 hj (by omega)⟩
    next hc2 =>
      split
      next hc3 =>
        rcases Nat.lt_or_ge j (first + 1) with hj1 | hj1
        · exact ⟨.range (ps.getD 0 0) (ps.getD first 0),
            by simp [push_1_ranges_2_escape_at_last],
            coveredBy_range hs (Nat.zero_le j) (by omega) (by omega)⟩
        · rcases Nat.lt_or_ge j (last + 1) with hj2 | hj2
          · exact ⟨.singleton (ps.getD last 0),
              by simp [push_1_ranges_2_escape_at_last],
              by rw [show j = last from by omega]; exact rfl⟩
          · exact ⟨.singleton (ps.getD len 0),
              by simp [push_1_ranges_2_escape_at_last],
              by rw [show j = len from by omega]; exact rfl⟩
      next hc3 =>
        rcases Nat.lt_or_ge j (first + 1) with hj1 | hj1
        · exact ⟨.range (ps.getD 0 0) (ps.getD first 0),
            by simp [push_2_ranges_1_escape],
            coveredBy_range hs (Nat.zero_le j) (by omega) (by omega)⟩
        · rcases Nat.lt_or_ge j (last + 1) with hj2 | hj2
          · have : j = first + 1 := by omega
            subst this
            exact ⟨.singleton (ps.getD (first + 1) 0),
              by simp [push_2_ranges_1_escape], rfl⟩
          · exact ⟨.range (ps.getD (last + 1) 0) (ps.getD len 0),
              by simp [push_2_ranges_1_escape],
              coveredBy_range hs hj2 hj (by omega)⟩
  next hc1 =>
    split
    next hc2 =>
      split
      next hc3 =>
        rcases Nat.eq_zero_or_pos j with rfl | hj0
        · exact ⟨.singleton (ps.getD 0 0),
            by simp [push_1_ranges_2_escape_at_first_last], rfl⟩
        · rcases Nat.lt_or_ge j (last + 1) with hj2 | hj2
          · exact ⟨.range (ps.getD (first + 1) 0) (ps.getD last 0),
              by simp [push_1_ranges_2_escape_at_first_last],
              coveredBy_range hs (by omega) (by omega) (by omega)⟩
          · exact ⟨.singleton (ps.getD len 0),
              by simp [push_1_ranges_2_escape_at_first_last],
              by rw [show j = len from by omega]; exact rfl⟩
      next hc3 =>
        rcases Nat.eq_zero_or_pos j with rfl | hj0
        · exact ⟨.singleton (ps.getD 0 0),
            by simp [push_2_ranges_1_escape_at_first], rfl⟩
        · rcases Nat.lt_or_ge j (last + 1) with hj2 | hj2
          · exact ⟨.range (ps.getD (first + 1) 0) (ps.getD last 0),
              by simp [push_2_ranges_1_escape_at_first],
              coveredBy_range hs (by omega) (by omega) (by omega)⟩
          · exact ⟨.range (ps.getD (last + 1) 0) (ps.getD len 0),
              by simp [push_2_ranges_1_escape_at_first],
              coveredBy_range hs hj2 hj (by omega)⟩
    next hc2 =>
      split
      next hc3 =>
        rcases Nat.lt_or_ge j (first + 1) with hj1 | hj1
        · exact ⟨.range (ps.getD 0 0) (ps.getD first 0),
            by simp [push_2_ranges_1_escape_at_last],
            coveredBy_range hs (Nat.zero_le j) (by omega) (by omega)⟩
        · rcases Nat.lt_or_ge j (last + 1) with hj2 | hj2
          · exact ⟨.range (ps.getD (first + 1) 0) (ps.getD last 0),
              by simp [push_2_ranges_1_escape_at_last],
              coveredBy_range hs hj1 (by omega) (by omega)⟩
          · exact ⟨.singleton (ps.getD len 0),
              by simp [push_2_ranges_1_escape_at_last],
              by rw [show j = len from by omega]; exact rfl⟩
      next hc3 =>
        rcases Nat.lt_or_ge j (first + 1) with hj1 | hj1
        · exact ⟨.range (ps.getD 0 0) (ps.getD first 0),
            by simp [push_3_ranges],
            coveredBy_range hs (Nat.zero_le j) (by omega) (by omega)⟩
        · rcases Nat.lt_or_ge j (last + 1) with hj2 | hj2
          · exact ⟨.range (ps.getD (first + 1) 0) (ps.getD last 0),
              by simp [push_3_ranges],
              coveredBy_range hs hj1 (by omega) (by omega)⟩
          · exact ⟨.range (ps.getD (last + 1) 0) (ps.getD len 0),
              by simp [push_3_ranges],
              coveredBy_range hs hj2 hj (by omega)⟩

/-- **C1**: soundness of the compacted encoding — every byte of the original pair
set is contained in an emitted range or equals an emitted singleton; the
encoding never under-reports a true escape byte. -/
theorem c1_no_escape_byte_omitted (ps : List Nat) (hv : Valid ps) (gs : List Group)
    (s : Bool) (hg : calculate_groups ps = some (gs, s)) :
    ∀ b ∈ ps, ∃ g ∈ gs, coveredBy b g := by
  intro b hb
  obtain ⟨j, hj, hjb⟩ := List.mem_iff_getElem.mp hb
  have hb' : ps.getD j 0 = b := by rw [List.getD_eq_getElem _ _ hj, hjb]
  subst hb'
  have hs := hv.2.1
  rcases calculate_groups_shape ps hv gs s hg with
    ⟨hlen, rfl, _⟩ | ⟨hlen, _, rfl, _⟩ | ⟨hlen, _, rfl, _⟩ |
    ⟨hlen, i, w, hbp, hsub⟩ | ⟨hlen, _, rfl, _⟩ |
    ⟨hlen, _, first, wf, last, wl, hm1, hm2, hfl, _, hgs⟩
  · have : j = 0 := by omega
    subst this
    exact ⟨.singleton (ps.getD 0 0), by simp, rfl⟩
  · exact ⟨.range (ps.getD 0 0) (ps.getD (ps.length - 1) 0), by simp,
      coveredBy_range hs (Nat.zero_le j) (by omega) (by omega)⟩
  · rcases (by omega : j = 0 ∨ j = 1) with rfl | rfl
    · exact ⟨.singleton (ps.getD 0 0), by simp, rfl⟩
    · exact ⟨.singleton (ps.getD 1 0), by simp, rfl⟩
  · have hmem : (i, w) ∈ breakPoints ps := by rw [hbp]; simp
    have hib : i + 1 ≤ ps.length - 1 := (mem_breakPoints hmem).1
    rcases hsub with ⟨hi0, rfl, _⟩ | ⟨hi0, hilen, rfl, _⟩ | ⟨hi0, hilen, rfl, _⟩
    · rcases Nat.eq_zero_or_pos j with rfl | hj0
      · exact ⟨.singleton (ps.getD 0 0), by simp, rfl⟩
      · exact ⟨.range (ps.getD 1 0) (ps.getD (ps.length - 1) 0), by simp,
          coveredBy_range hs (by omega) (by omega) (by omega)⟩
    · rcases Nat.lt_or_ge j (i + 1) with hj1 | hj1
      · exact ⟨.range (ps.getD 0 0) (ps.getD i 0), by simp,
          coveredBy_range hs (Nat.zero_le j) (by omega) (by omega)⟩
      · have : j = i + 1 := by omega
        subst this
        exact ⟨.singleton (ps.getD (i + 1) 0), by simp, rfl⟩
    · rcases Nat.lt_or_ge j (i + 1) with hj1 | hj1
      · exact ⟨.range (ps.getD 0 0) (ps.getD i 0), by simp,
          coveredBy_range hs (Nat.zero_le j) (by omega) (by omega)⟩
      · exact ⟨.range (ps.getD (i + 1) 0) (ps.getD (ps.length - 1) 0), by simp,
          coveredBy_range hs hj1 (by omega) (by omega)⟩
  · exact ⟨.singleton (ps.getD j 0), List.mem_map_of_mem _ (getD_mem_self hj), rfl⟩
  · have h2f : first + 1 ≤ ps.length - 1 := (mem_breakPoints hm1).1
    have h2l : last + 1 ≤ ps.length - 1 := (mem_breakPoints hm2).1
    have hgs1 : gs = (dispatchTwoBreaks ps first last (ps.length - 1)).1 := by
      rw [← hgs]
    rw [hgs1]
    exact dispatchTwoBreaks_covers hs hfl (by omega) (by omega) (by omega)

/-- **C1** witness at a concrete valid input. -/
theorem c1_no_escape_byte_omitted_witness :
    Valid [0, 5] ∧
      calculate_groups [0, 5] = some ([.singleton 0, .singleton 5], true) ∧
      ∀ b ∈ ([0, 5] : List Nat),
        ∃ g ∈ ([Group.singleton 0, .singleton 5] : List Group), coveredBy b g :=
  ⟨by decide, by decide,
    c1_no_escape_byte_omitted [0, 5] (by decide)
      [.singleton 0, .singleton 5] true (by decide)⟩

/-- Sentinel rule of every two-break dispatch branch: the flag is set iff the
branch emits no range group or at least two singleton groups. -/
theorem dispatchTwoBreaks_sentinel (ps : List Nat) (first last len : Nat) :
    ((dispatchTwoBreaks ps first last len).2 = true ↔
      ((dispatchTwoBreaks ps first last len).1.filter isRange).length = 0 ∨
        2 ≤ ((dispatchTwoBreaks ps first last len).1.filter
              fun g => !isRange g).length) := by
  unfold dispatchTwoBreaks
  split
  · split
    · simp [push_1_ranges_2_escape_at_first, isRange, List.filter]
    · split
      · simp [push_1_ranges_2_escape_at_last, isRange, List.filter]
      · simp [push_2_ranges_1_escape, isRange, List.filter]
  · split
    · split
      · simp [push_1_ranges_2_escape_at_first_last, isRange, List.filter]
      · simp [push_2_ranges_1_escape_at_first, isRange, List.filter]
    · split
      · simp [push_2_ranges_1_escape_at_last, isRange, List.filter]
      · simp [push_3_ranges, isRange, List.filter]

/-- A list of length three is an explicit three-element list. -/
theorem exists_eq_of_length_three {α : Type} {l : List α} (h : l.length = 3) :
    ∃ a b c, l = [a, b, c] := by
  rcases l with _ | ⟨a, _ | ⟨b, _ | ⟨c, _ | ⟨d, tl⟩⟩⟩⟩
  · exact absurd h (by simp)
  · exact absurd h (by simp)
  · exact absurd h (by simp)
  · exact ⟨a, b, c, rfl⟩
  · simp at h

/-- **C2**: the sentinel byte is appended iff the produced comparison groups
contain zero range groups or at least two singleton groups, and the byte
encoding is the serialization of those groups. -/
theorem c2_sentinel_iff_groups (ps : List Nat) (hv : Valid ps) (gs : List Group)
    (s : Bool) (hg : calculate_groups ps = some (gs, s)) :
    (s = true ↔
      (gs.filter isRange).length = 0 ∨ 2 ≤ (gs.filter fun g => !isRange g).length) ∧
      calculate_ranges ps = some (serialize gs s) := by
  refine ⟨?_, by rw [calculate_ranges, hg]; rfl⟩
  rcases calculate_groups_shape ps hv gs s hg with
    ⟨hlen, rfl, rfl⟩ | ⟨hlen, _, rfl, rfl⟩ | ⟨hlen, _, rfl, rfl⟩ |
    ⟨hlen, i, w, hbp, hsub⟩ | ⟨hlen, _, rfl, rfl⟩ |
    ⟨hlen, _, first, wf, last, wl, _, _, _, _, hgs⟩
  · simp [isRange, List.filter]
  · simp [isRange, List.filter]
  · simp [isRange, List.filter]
  · rcases hsub with ⟨_, rfl, rfl⟩ | ⟨_, _, rfl, rfl⟩ | ⟨_, _, rfl, rfl⟩ <;>
      simp [isRange, List.filter]
  · obtain ⟨a, b, c, rfl⟩ := exists_eq_of_length_three hlen
    simp [isRange, List.filter]
  · have hgs1 : gs = (dispatchTwoBreaks ps first last (ps.length - 1)).1 := by
      rw [← hgs]
    have hgs2 : s = (dispatchTwoBreaks ps first last (ps.length - 1)).2 := by
      rw [← hgs]
    rw [hgs1, hgs2]
    exact dispatchTwoBreaks_sentinel ps first last (ps.length - 1)

/-- **C2** witness at a concrete valid input. -/
theorem c2_sentinel_iff_groups_witness :
    Valid [0, 2] ∧
      calculate_groups [0, 2] = some ([.singleton 0, .singleton 2], true) ∧
      ((true = true ↔
        (([Group.singleton 0, .singleton 2].filter isRange).length = 0 ∨
          2 ≤ (([Group.singleton 0, .singleton 2] : List Group).filter
                fun g => !isRange g).length)) ∧
        calculate_ranges [0, 2] =
          some (serialize [.singleton 0, .singleton 2] true)) :=
  ⟨by decide, by decide,
    c2_sentinel_iff_groups [0, 2] (by decide) [.singleton 0, .singleton 2] true
      (by decide)⟩

/-- The group of one run of pair indices `[a, b]`: a single index becomes a
singleton group, a longer run becomes a range group. -/
def runGroup (ps : List Nat) (a b : Nat) : Group :=
  if a = b then .singleton (ps.getD a 0) else .range (ps.getD a 0) (ps.getD b 0)

/-- The canonical output order: all ranges first, then all singletons, each side
in its original (left-to-right run) order. -/
def orderGroups (gs : List Group) : List Group :=
  gs.filter isRange ++ gs.filter fun g => !isRange g

/-- Every two-break dispatch branch emits exactly the groups of the three runs
cut at `first` and `last`, ordered ranges-first in run order. -/
theorem dispatchTwoBreaks_eq_orderGroups (ps : List Nat) {first last len : Nat}
    (h2 : 2 < len) (hfl : first < last) :
    (dispatchTwoBreaks ps first last len).1 =
      orderGroups [runGroup ps 0 first, runGroup ps (first + 1) last,
        runGroup ps (last + 1) len] := by
  unfold dispatchTwoBreaks
  split
  next hc1 =>
    split
    next hc2 =>
      have e1 : runGroup ps 0 first = .singleton (ps.getD 0 0) := by
        unfold runGroup
        rw [if_pos (by omega)]
      have e2 : runGroup ps (first + 1) last = .singleton (ps.getD (first + 1) 0) := by
        unfold runGroup
        rw [if_pos (by omega)]
      have e3 : runGroup ps (last + 1) len =
          .range (ps.getD (last + 1) 0) (ps.getD len 0) := by
        unfold runGroup
        rw [if_neg (by omega)]
      rw [e1, e2, e3]
      simp [orderGroups, push_1_ranges_2_escape_at_first, isRange, List.filter]
    next hc2 =>
      split
      next hc3 =>
        have e1 : runGroup ps 0 first = .range (ps.getD 0 0) (ps.getD first 0) := by
          unfold runGroup
          rw [if_neg (by omega)]
        have e2 : runGroup ps (first + 1) last = .singleton (ps.getD last 0) := by
          unfold runGroup
          rw [if_pos (by omega), show first + 1 = last from hc1]
        have e3 : runGroup ps (last + 1) len = .singleton (ps.getD len 0) := by
          unfold runGroup
          rw [if_pos (by omega), show last + 1 = len from hc3]
        rw [e1, e2, e3]
        simp [orderGroups, push_1_ranges_2_escape_at_last, isRange, List.filter]
      next hc3 =>
        have e1 : runGroup ps 0 first = .range (ps.getD 0 0) (ps.getD first 0) := by
          unfold runGroup
          rw [if_neg (by omega)]
        have e2 : runGroup ps (first + 1) last = .singleton (ps.getD (first + 1) 0) := by
          unfold runGroup
          rw [if_pos (by omega)]
        have e3 : runGroup ps (last + 1) len =
            .range (ps.getD (last + 1) 0) (ps.getD len 0) := by
          unfold runGroup
          rw [if_neg (by omega)]
        rw [e1, e2, e3]
        simp [orderGroups, push_2_ranges_1_escape, isRange, List.filter]
  next hc1 =>
    split
    next hc2 =>
      split
      next hc3 =>
        have e1 : runGroup ps 0 first = .singleton (ps.getD 0 0) := by
          unfold runGroup
          rw [if_pos (by omega)]
        have e2 : runGroup ps (first + 1) last =
            .range (ps.getD (first + 1) 0) (ps.getD last 0) := by
          unfold runGroup
          rw [if_neg (by omega)]
        have e3 : runGroup ps (last + 1) len = .singleton (ps.getD len 0) := by
          unfold runGroup
          rw [if_pos (by omega), show last + 1 = len from hc3]
        rw [e1, e2, e3]
        simp [orderGroups, push_1_ranges_2_escape_at_first_last, isRange, List.filter]
      next hc3 =>
        have e1 : runGroup ps 0 first = .singleton (ps.getD 0 0) := by
          unfold runGroup
          rw [if_pos (by omega)]
        have e2 : runGroup ps (first + 1) last =
            .range (ps.getD (first + 1) 0) (ps.getD last 0) := by
          unfold runGroup
          rw [if_neg (by omega)]
        have e3 : runGroup ps (last + 1) len =
            .range (ps.getD (last + 1) 0) (ps.getD len 0) := by
          unfold runGroup
          rw [if_neg (by omega)]
        rw [e1, e2, e3]
        simp [orderGroups, push_2_ranges_1_escape_at_first, isRange, List.filter]
    next hc2 =>
      split
      next hc3 =>
        have e1 : runGroup ps 0 first = .range (ps.getD 0 0) (ps.getD first 0) := by
          unfold runGroup
          rw [if_neg (by omega)]
        have e2 : runGroup ps (first + 1) last =
            .range (ps.getD (first + 1) 0) (ps.getD last 0) := by
          unfold runGroup
          rw [if_neg (by omega)]
        have e3 : runGroup ps (last + 1) len = .singleton (ps.getD len 0) := by
          unfold runGroup
          rw [if_pos (by omega), show last + 1 = len from hc3]
        rw [e1, e2, e3]
        simp [orderGroups, push_2_ranges_1_escape_at_last, isRange, List.filter]
      next hc3 =>
        have e1 : runGroup ps 0 first = .range (ps.getD 0 0) (ps.getD first 0) := by
          unfold runGroup
          rw [if_neg (by omega)]
        have e2 : runGroup ps (first + 1) last =
            .range (ps.getD (first + 1) 0) (ps.getD last 0) := by
          unfold runGroup
          rw [if_neg (by omega)]
        have e3 : runGroup ps (last + 1) len =
            .range (ps.getD (last + 1) 0) (ps.getD len 0) := by
          unfold runGroup
          rw [if_neg (by omega)]
        rw [e1, e2, e3]
        simp [orderGroups, push_3_ranges, isRange, List.filter]

/-- **C4**: with at least two break points and more than three bytes, the two
break points of largest gap width are selected; they cut the pairs into three
runs, each emitted as a singleton (run of length 1) or range (run of length
≥ 2), with all ranges first and then all singletons, each in left-to-right run
order. -/
theorem c4_widest_two_breaks_three_runs (ps : List Nat) (hv : Valid ps)
    (hb2 : 2 ≤ (breakPoints ps).length) (h4 : 3 < ps.length)
    (gs : List Group) (s : Bool) (hg : calculate_groups ps = some (gs, s)) :
    ∃ first wf last wl,
      (first, wf) ∈ breakPoints ps ∧ (last, wl) ∈ breakPoints ps ∧ first < last ∧
      (∀ x ∈ breakPoints ps, x.1 ≠ first → x.1 ≠ last → x.2 ≤ wf ∧ x.2 ≤ wl) ∧
      gs = orderGroups [runGroup ps 0 first, runGroup ps (first + 1) last,
        runGroup ps (last + 1) (ps.length - 1)] := by
  rcases calculate_groups_shape ps hv gs s hg with
    ⟨hlen, _, _⟩ | ⟨hlen, hbp, _, _⟩ | ⟨hlen, hbp, _, _⟩ |
    ⟨hlen, i, w, hbp, _⟩ | ⟨hlen, _, _, _⟩ |
    ⟨hlen, _, first, wf, last, wl, hm1, hm2, hfl, hdom, hgs⟩
  · omega
  · rw [hbp] at hb2
    simp at hb2
  · omega
  · rw [hbp] at hb2
    simp at hb2
  · omega
  · refine ⟨first, wf, last, wl, hm1, hm2, hfl, hdom, ?_⟩
    have hgs1 : gs = (dispatchTwoBreaks ps first last (ps.length - 1)).1 := by
      rw [← hgs]
    rw [hgs1]
    exact dispatchTwoBreaks_eq_orderGroups ps (by omega) hfl

/-- **C4** witness at a concrete valid input. -/
theorem c4_widest_two_breaks_three_runs_witness :
    Valid [0, 2, 5, 6] ∧ 2 ≤ (breakPoints [0, 2, 5, 6]).length ∧
      3 < ([0, 2, 5, 6] : List Nat).length ∧
      calculate_groups [0, 2, 5, 6] =
        some ([.range 5 6, .singleton 0, .singleton 2], true) ∧
      ∃ first wf last wl,
        (first, wf) ∈ breakPoints [0, 2, 5, 6] ∧
        (last, wl) ∈ breakPoints [0, 2, 5, 6] ∧ first < last ∧
        (∀ x ∈ breakPoints [0, 2, 5, 6], x.1 ≠ first → x.1 ≠ last →
          x.2 ≤ wf ∧ x.2 ≤ wl) ∧
        ([Group.range 5 6, .singleton 0, .singleton 2] : List Group) =
          orderGroups [runGroup [0, 2, 5, 6] 0 first,
            runGroup [0, 2, 5, 6] (first + 1) last,
            runGroup [0, 2, 5, 6] (last + 1) (([0, 2, 5, 6] : List Nat).length - 1)] :=
  ⟨by decide, by decide, by decide, by decide,
    c4_widest_two_breaks_three_runs [0, 2, 5, 6] (by decide) (by decide) (by decide)
      [.range 5 6, .singleton 0, .singleton 2] true (by decide)⟩

/-- **C5**: with exactly one break point and more than two bytes, the two runs
are emitted with length-1 runs as singletons and longer runs as ranges, the
range placed before the singleton regardless of byte order, and no sentinel. -/
theorem c5_one_break_two_runs (ps : List Nat) (hv : Valid ps) (i w : Nat)
    (hbp : breakPoints ps = [(i, w)]) (h3 : 2 < ps.length)
    (gs : List Group) (s : Bool) (hg : calculate_groups ps = some (gs, s)) :
    s = false ∧
      gs = orderGroups [runGroup ps 0 i, runGroup ps (i + 1) (ps.length - 1)] := by
  rcases calculate_groups_shape ps hv gs s hg with
    ⟨hlen, _, _⟩ | ⟨hlen, hbp2, _, _⟩ | ⟨hlen, _, _, _⟩ |
    ⟨hlen, i2, w2, hbp2, hsub⟩ | ⟨hlen, hb2, _, _⟩ |
    ⟨hlen, hb2, _⟩
  · omega
  · rw [hbp] at hbp2
    exact absurd hbp2 (by simp)
  · omega
  · rw [hbp] at hbp2
    simp only [List.cons.injEq, Prod.mk.injEq, and_true] at hbp2
    obtain ⟨h1, h2⟩ := hbp2
    subst h1
    subst h2
    have hib : i + 1 ≤ ps.length - 1 :=
      (mem_breakPoints (x := (i, w)) (by rw [hbp]; simp)).1
    rcases hsub with ⟨hi0, rfl, rfl⟩ | ⟨hi0, hilen, rfl, rfl⟩ | ⟨hi0, hilen, rfl, rfl⟩
    · refine ⟨rfl, ?_⟩
      rw [hi0]
      have e1 : runGroup ps 0 0 = .singleton (ps.getD 0 0) := by
        unfold runGroup
        rw [if_pos rfl]
      have e2 : runGroup ps (0 + 1) (ps.length - 1) =
          .range (ps.getD (0 + 1) 0) (ps.getD (ps.length - 1) 0) := by
        unfold runGroup
        rw [if_neg (by omega)]
      rw [e1, e2]
      simp [orderGroups, isRange, List.filter]
    · refine ⟨rfl, ?_⟩
      have e1 : runGroup ps 0 i = .range (ps.getD 0 0) (ps.getD i 0) := by
        unfold runGroup
        rw [if_neg (by omega)]
      have e2 : runGroup ps (i + 1) (ps.length - 1) =
          .singleton (ps.getD (i + 1) 0) := by
        unfold runGroup
        rw [if_pos (by omega)]
      rw [e1, e2]
      simp [orderGroups, isRange, List.filter]
    · refine ⟨rfl, ?_⟩
      have e1 : runGroup ps 0 i = .range (ps.getD 0 0) (ps.getD i 0) := by
        unfold runGroup
        rw [if_neg (by omega)]
      have e2 : runGroup ps (i + 1) (ps.length - 1) =
          .range (ps.getD (i + 1) 0) (ps.getD (ps.length - 1) 0) := by
        unfold runGroup
        rw [if_neg (by omega)]
      rw [e1, e2]
      simp [orderGroups, isRange, List.filter]
  · rw [hbp] at hb2
    simp at hb2
  · rw [hbp] at hb2
    simp at hb2

/-- **C5** witness at a concrete valid input (break at position 0: the singleton
is placed after the range). -/
theorem c5_one_break_two_runs_witness :
    Valid [0, 2, 3] ∧ breakPoints [0, 2, 3] = [(0, 2)] ∧
      2 < ([0, 2, 3] : List Nat).length ∧
      calculate_groups [0, 2, 3] = some ([.range 2 3, .singleton 0], false) ∧
      (false = false ∧
        ([Group.range 2 3, .singleton 0] : List Group) =
          orderGroups [runGroup [0, 2, 3] 0 0,
            runGroup [0, 2, 3] (0 + 1) (([0, 2, 3] : List Nat).length - 1)]) :=
  ⟨by decide, by decide, by decide, by decide,
    c5_one_break_two_runs [0, 2, 3] (by decide) 0 2 (by decide) (by decide)
      [.range 2 3, .singleton 0] false (by decide)⟩

/-- **C6** (corrected): the single-element input has zero break points, yet the
compactor returns `[byte, FLAG]` (a singleton plus sentinel), not the two-byte
range `[byte, byte]` with no sentinel that the claim asserts. -/
theorem c6_counterexample_single_element :
    Valid [0] ∧ breakPoints [0] = [] ∧ calculate_ranges [0] = some [0, FLAG] ∧
      calculate_ranges [0] ≠ some [0, 0] := by
  decide

/-- **C6** (amended): on every valid input of at least two bytes with zero break
points, the compactor returns the single range group and serializes it as
exactly the two bytes `[first, last]`, with no sentinel. -/
theorem c6_amended_zero_breaks_single_range (ps : List Nat) (hv : Valid ps)
    (h2 : 2 ≤ ps.length) (hbp : breakPoints ps = []) :
    calculate_groups ps =
        some ([.range (ps.getD 0 0) (ps.getD (ps.length - 1) 0)], false) ∧
      calculate_ranges ps = some [ps.getD 0 0, ps.getD (ps.length - 1) 0] := by
  have hcg : calculate_groups ps =
      some ([.range (ps.getD 0 0) (ps.getD (ps.length - 1) 0)], false) := by
    unfold calculate_groups
    rw [if_neg (by omega), if_neg (by omega), hbp]
    rfl
  refine ⟨hcg, ?_⟩
  rw [calculate_ranges, hcg]
  rfl

/-- **C6** (amended) witness at a concrete valid input. -/
theorem c6_amended_zero_breaks_single_range_witness :
    Valid [3, 4] ∧ 2 ≤ ([3, 4] : List Nat).length ∧ breakPoints [3, 4] = [] ∧
      (calculate_groups [3, 4] = some ([.range 3 4], false) ∧
        calculate_ranges [3, 4] = some [3, 4]) :=
  ⟨by decide, by decide, by decide,
    c6_amended_zero_breaks_single_range [3, 4] (by decide) (by decide) (by decide)⟩

/-- Every serialized byte of a two-break dispatch branch is one of the pair bytes. -/
theorem dispatchTwoBreaks_bytes_mem {ps : List Nat} {first last len : Nat}
    (hf : first + 1 ≤ len) (hl : last + 1 ≤ len) (hlen : len < ps.length) :
    ∀ b ∈ (((dispatchTwoBreaks ps first last len).1).map groupBytes).flatten,
      b ∈ ps := by
  intro b hb
  unfold dispatchTwoBreaks at hb
  split at hb
  · split at hb
    · simp [push_1_ranges_2_escape_at_first, groupBytes] at hb
      rcases hb with rfl | rfl | rfl | rfl <;> exact getElemD_mem (by omega)
    · split at hb
      · simp [push_1_ranges_2_escape_at_last, groupBytes] at hb
        rcases hb with rfl | rfl | rfl | rfl <;> exact getElemD_mem (by omega)
      · simp [push_2_ranges_1_escape, groupBytes] at hb
        rcases hb with rfl | rfl | rfl | rfl | rfl <;> exact getElemD_mem (by omega)
  · split at hb
    · split at hb
      · simp [push_1_ranges_2_escape_at_first_last, groupBytes] at hb
        rcases hb with rfl | rfl | rfl | rfl <;> exact getElemD_mem (by omega)
      · simp [push_2_ranges_1_escape_at_first, groupBytes] at hb
        rcases hb with rfl | rfl | rfl | rfl | rfl <;> exact getElemD_mem (by omega)
    · split at hb
      · simp [push_2_ranges_1_escape_at_last, groupBytes] at hb
        rcases hb with rfl | rfl | rfl | rfl | rfl <;> exact getElemD_mem (by omega)
      · simp [push_3_ranges, groupBytes] at hb
        rcases hb with rfl | rfl | rfl | rfl | rfl | rfl <;>
          exact getElemD_mem (by omega)

/-- Every byte of the serialized group list (sentinel aside) is a pair byte. -/
theorem calculate_groups_bytes_mem (ps : List Nat) (hv : Valid ps)
    (gs : List Group) (s : Bool) (hg : calculate_groups ps = some (gs, s)) :
    ∀ b ∈ (gs.map groupBytes).flatten, b ∈ ps := by
  intro b hb
  rcases calculate_groups_shape ps hv gs s hg with
    ⟨hlen, rfl, _⟩ | ⟨hlen, _, rfl, _⟩ | ⟨hlen, _, rfl, _⟩ |
    ⟨hlen, i, w, hbp, hsub⟩ | ⟨hlen, _, rfl, _⟩ |
    ⟨hlen, _, first, wf, last, wl, hm1, hm2, hfl, _, hgs⟩
  · simp [groupBytes] at hb
    subst hb
    exact getElemD_mem (by omega)
  · simp [groupBytes] at hb
    rcases hb with rfl | rfl <;> exact getElemD_mem (by omega)
  · simp [groupBytes] at hb
    rcases hb with rfl | rfl <;> exact getElemD_mem (by omega)
  · have hib : i + 1 ≤ ps.length - 1 :=
      (mem_breakPoints (x := (i, w)) (by rw [hbp]; simp)).1
    rcases hsub with ⟨_, rfl, _⟩ | ⟨_, _, rfl, _⟩ | ⟨_, _, rfl, _⟩ <;>
      simp [groupBytes] at hb
    · rcases hb with rfl | rfl | rfl <;> exact getElemD_mem (by omega)
    · rcases hb with rfl | rfl | rfl <;> exact getElemD_mem (by omega)
    · rcases hb with rfl | rfl | rfl | rfl <;> exact getElemD_mem (by omega)
  · obtain ⟨a, c, d, rfl⟩ := exists_eq_of_length_three hlen
    simp [groupBytes] at hb
    rcases hb with rfl | rfl | rfl <;> simp
  · have h2f : first + 1 ≤ ps.length - 1 := (mem_breakPoints hm1).1
    have h2l : last + 1 ≤ ps.length - 1 := (mem_breakPoints hm2).1
    have hgs1 : gs = (dispatchTwoBreaks ps first last (ps.length - 1)).1 := by
      rw [← hgs]
    rw [hgs1] at hb
    exact dispatchTwoBreaks_bytes_mem h2f h2l (by omega) b hb

/-- **C8** (corrected): a valid input may itself contain the byte 128, and then
128 occurs in the encoding as a singleton value, not only as the sentinel. -/
theorem c8_counterexample_byte_128 :
    Valid [128] ∧ calculate_groups [128] = some ([.singleton 128], true) ∧
      calculate_ranges [128] = some [128, 128] := by
  decide

/-- **C8** (amended): on every valid input that does not contain the byte 128
itself, the value 128 never occurs as a range bound or singleton value, and
appears in the byte encoding only as the optional trailing sentinel. -/
theorem c8_amended_flag_only_trailing (ps : List Nat) (hv : Valid ps)
    (h128 : (128 : Nat) ∉ ps) (gs : List Group) (s : Bool)
    (hg : calculate_groups ps = some (gs, s)) :
    calculate_ranges ps = some (serialize gs s) ∧
      (∀ b ∈ (gs.map groupBytes).flatten, b ≠ FLAG) ∧
      (s = true → (serialize gs s).getLast? = some FLAG) := by
  refine ⟨by rw [calculate_ranges, hg]; rfl, ?_, ?_⟩
  · intro b hb heq
    have h1 := calculate_groups_bytes_mem ps hv gs s hg b hb
    rw [heq] at h1
    exact h128 h1
  · intro hs1
    subst hs1
    unfold serialize
    rw [if_pos rfl]
    exact List.getLast?_concat _

/-- **C8** (amended) witness at a concrete valid input (with a byte above 128). -/
theorem c8_amended_flag_only_trailing_witness :
    Valid [0, 200] ∧ (128 : Nat) ∉ ([0, 200] : List Nat) ∧
      calculate_groups [0, 200] = some ([.singleton 0, .singleton 200], true) ∧
      (calculate_ranges [0, 200] =
          some (serialize [.singleton 0, .singleton 200] true) ∧
        (∀ b ∈ (([Group.singleton 0, .singleton 200] : List Group).map
            groupBytes).flatten, b ≠ FLAG) ∧
        (true = true →
          (serialize [Group.singleton 0, .singleton 200] true).getLast? =
            some FLAG)) :=
  ⟨by decide, by decide, by decide,
    c8_amended_flag_only_trailing [0, 200] (by decide) (by decide)
      [.singleton 0, .singleton 200] true (by decide)⟩

/-- Serialized length of every two-break dispatch branch is 5 or 6. -/
theorem dispatchTwoBreaks_serialize_length (ps : List Nat) (first last len : Nat) :
    2 ≤ (serialize (dispatchTwoBreaks ps first last len).1
          (dispatchTwoBreaks ps first last len).2).length ∧
      (serialize (dispatchTwoBreaks ps first last len).1
          (dispatchTwoBreaks ps first last len).2).length ≤ 6 := by
  unfold dispatchTwoBreaks
  split
  · split
    · simp [serialize, push_1_ranges_2_escape_at_first, groupBytes]
    · split
      · simp [serialize, push_1_ranges_2_escape_at_last, groupBytes]
      · simp [serialize, push_2_ranges_1_escape, groupBytes]
  · split
    · split
      · simp [serialize, push_1_ranges_2_escape_at_first_last, groupBytes]
      · simp [serialize, push_2_ranges_1_escape_at_first, groupBytes]
    · split
      · simp [serialize, push_2_ranges_1_escape_at_last, groupBytes]
      · simp [serialize, push_3_ranges, groupBytes]

/-- **C10**: the compactor's byte output has length between 2 and 6, and when
the sentinel is appended it is the final byte. -/
theorem c10_length_bounds_and_sentinel_last (ps : List Nat) (hv : Valid ps)
    (out : List Nat) (ho : calculate_ranges ps = some out) :
    2 ≤ out.length ∧ out.length ≤ 6 ∧
      ∀ gs s, calculate_groups ps = some (gs, s) → s = true →
        out.getLast? = some FLAG := by
  rw [calculate_ranges] at ho
  obtain ⟨⟨gs, s⟩, hg, hout⟩ : ∃ x, calculate_groups ps = some x ∧
      serialize x.1 x.2 = out := by
    cases hcg : calculate_groups ps with
    | none => rw [hcg] at ho; exact Option.noConfusion ho
    | some x => rw [hcg] at ho; exact ⟨x, rfl, Option.some.inj ho⟩
  subst hout
  have hbounds : 2 ≤ (serialize gs s).length ∧ (serialize gs s).length ≤ 6 := by
    rcases calculate_groups_shape ps hv gs s hg with
      ⟨hlen, rfl, rfl⟩ | ⟨hlen, _, rfl, rfl⟩ | ⟨hlen, _, rfl, rfl⟩ |
      ⟨hlen, i, w, hbp, hsub⟩ | ⟨hlen, _, rfl, rfl⟩ |
      ⟨hlen, _, first, wf, last, wl, _, _, _, _, hgs⟩
    · simp [serialize, groupBytes]
    · simp [serialize, groupBytes]
    · simp [serialize, groupBytes]
    · rcases hsub with ⟨_, rfl, rfl⟩ | ⟨_, _, rfl, rfl⟩ | ⟨_, _, rfl, rfl⟩ <;>
        simp [serialize, groupBytes]
    · obtain ⟨a, b, c, rfl⟩ := exists_eq_of_length_three hlen
      simp [serialize, groupBytes]
    · have h1 : gs = (dispatchTwoBreaks ps first last (ps.length - 1)).1 := by
        rw [← hgs]
      have h2 : s = (dispatchTwoBreaks ps first last (ps.length - 1)).2 := by
        rw [← hgs]
      rw [h1, h2]
      exact dispatchTwoBreaks_serialize_length ps first last (ps.length - 1)
  refine ⟨hbounds.1, hbounds.2, ?_⟩
  intro gs' s' hg' hs'
  rw [hg] at hg'
  have h1 := Option.some.inj hg'
  obtain ⟨rfl, rfl⟩ : gs' = gs ∧ s' = s :=
    ⟨(congrArg Prod.fst h1).symm, (congrArg Prod.snd h1).symm⟩
  subst hs'
  unfold serialize
  rw [if_pos rfl]
  exact List.getLast?_concat _

/-- **C10** witness at a concrete valid input. -/
theorem c10_length_bounds_and_sentinel_last_witness :
    Valid [0, 5] ∧ calculate_ranges [0, 5] = some [0, 5, 128] ∧
      (2 ≤ ([0, 5, 128] : List Nat).length ∧ ([0, 5, 128] : List Nat).length ≤ 6 ∧
        ∀ gs s, calculate_groups [0, 5] = some (gs, s) → s = true →
          ([0, 5, 128] : List Nat).getLast? = some FLAG) :=
  ⟨by decide, by decide,
    c10_length_bounds_and_sentinel_last [0, 5] (by decide) [0, 5, 128] (by decide)⟩

/-- An escape pair of the parser: a byte value (`char`) and its replacement text
(`quote`); `str::from_utf8(s.quote).expect(..)` of `write_static_table` is
modelled by the replacement already being a `String`. -/
structure Pair where
  char : Nat
  quote : String
deriving DecidableEq

instance : Inhabited Pair := ⟨⟨0, ""⟩⟩

/-- The loop of Rust's `slice::binary_search_by` specialized to the pair bytes,
comparing the probed byte to the target `t` (the source's closure is
`s.char.cmp(&i)`): search the half-open index interval `[left, right)`,
probing `mid = left + size / 2` with `size = right - left`. -/
def binary_search_go (ps : List Nat) (t left right : Nat) : Option Nat :=
  if left < right then
    if ps.getD (left + (right - left) / 2) 0 < t then
      binary_search_go ps t (left + (right - left) / 2 + 1) right
    else if t < ps.getD (left + (right - left) / 2) 0 then
      binary_search_go ps t left (left + (right - left) / 2)
    else some (left + (right - left) / 2)
  else none
termination_by right - left
decreasing_by
  · omega
  · omega

/-- Rust's `pairs.binary_search_by(|s| s.char.cmp(&i))`: `some index` models
`Ok(index)` (byte found), `none` models `Err(_)` (absent; the source discards
the insertion point via `unwrap_or(len)`). -/
def binary_search_by (ps : List Nat) (t : Nat) : Option Nat :=
  binary_search_go ps t 0 ps.length

/-- The 256-entry static classification table `V_ESCAPE_TABLE` emitted by
`write_static_table`: entry `b` is the pair index found for byte `b`, or
`pairs.len()` when `b` escapes nothing. -/
def v_escape_table (pairs : List Pair) : List Nat :=
  (List.range 256).map fun i =>
    (binary_search_by (pairs.map Pair.char) i).getD pairs.length

/-- The replacement table `V_ESCAPE_QUOTES` emitted by `write_static_table`,
index-aligned with the pair list. -/
def v_escape_quotes (pairs : List Pair) : List String :=
  pairs.map Pair.quote

/-- Correctness of the binary-search loop on a strictly sorted list: under the
bracketing invariants, a `some` result is an index of the target and a `none`
result means the target is absent. -/
theorem binary_search_go_spec (ps : List Nat) (hs : List.Chain' (· < ·) ps)
    (t : Nat) (n : Nat) :
    ∀ left right, right - left ≤ n → right ≤ ps.length →
      (∀ j, j < left → ps.getD j 0 < t) →
      (∀ j, right ≤ j → j < ps.length → t < ps.getD j 0) →
      ((∀ i, binary_search_go ps t left right = some i →
          i < ps.length ∧ ps.getD i 0 = t) ∧
        (binary_search_go ps t left right = none → t ∉ ps)) := by
  induction n with
  | zero =>
    intro left right hn hr hleft hright
    have hlr : ¬left < right := by omega
    rw [binary_search_go, if_neg hlr]
    refine ⟨fun i hi => Option.noConfusion hi, fun _ hmem => ?_⟩
    obtain ⟨j, hj, hjb⟩ := List.mem_iff_getElem.mp hmem
    have hjb' : ps.getD j 0 = t := by rw [List.getD_eq_getElem _ _ hj, hjb]
    rcases Nat.lt_or_ge j left with h | h
    · exact absurd hjb' (by have := hleft j h; omega)
    · exact absurd hjb' (by have := hright j (by omega) hj; omega)
  | succ n ih =>
    intro left right hn hr hleft hright
    by_cases hlr : left < right
    · rw [binary_search_go, if_pos hlr]
      have hmidlt : left + (right - left) / 2 < ps.length := by omega
      by_cases h1 : ps.getD (left + (right - left) / 2) 0 < t
      · rw [if_pos h1]
        refine ih (left + (right - left) / 2 + 1) right (by omega) hr ?_ hright
        intro j hj
        have hj1 : j ≤ left + (right - left) / 2 := by omega
        exact lt_of_le_of_lt (getD_mono hs hj1 hmidlt) h1
      · rw [if_neg h1]
        by_cases h2 : t < ps.getD (left + (right - left) / 2) 0
        · rw [if_pos h2]
          refine ih left (left + (right - left) / 2) (by omega) (by omega) hleft ?_
          intro j hj hjlen
          exact lt_of_lt_of_le h2 (getD_mono hs hj hjlen)
        · rw [if_neg h2]
          have heq : ps.getD (left + (right - left) / 2) 0 = t := by omega
          refine ⟨fun i hi => ?_, fun hnone => Option.noConfusion hnone⟩
          have hi' : left + (right - left) / 2 = i := Option.some.inj hi
          subst hi'
          exact ⟨hmidlt, heq⟩
    · rw [binary_search_go, if_neg hlr]
      refine ⟨fun i hi => Option.noConfusion hi, fun _ hmem => ?_⟩
      obtain ⟨j, hj, hjb⟩ := List.mem_iff_getElem.mp hmem
      have hjb' : ps.getD j 0 = t := by rw [List.getD_eq_getElem _ _ hj, hjb]
      rcases Nat.lt_or_ge j left with h | h
      · exact absurd hjb' (by have := hleft j h; omega)
      · exact absurd hjb' (by have := hright j (by omega) hj; omega)

/-- An entry of the emitted 256-entry table, before interpretation. -/
theorem v_escape_table_getD (pairs : List Pair) {b : Nat} (hb : b < 256) :
    (v_escape_table pairs).getD b 0 =
      (binary_search_by (pairs.map Pair.char) b).getD pairs.length := by
  unfold v_escape_table
  rw [List.getD_eq_getElem _ _ (by simpa using hb)]
  simp

/-- **C7**: for every byte `b` in `0..=255`, the classification table maps `b`
to the index of the pair with byte `b` when `b` occurs in the pair list and to
`pairs.len()` (the "no match" sentinel) otherwise; and the replacement table is
the pairs' replacement texts in input order. -/
theorem c7_classification_table (pairs : List Pair)
    (hs : List.Chain' (· < ·) (pairs.map Pair.char)) (b : Nat) (hb : b < 256) :
    (b ∈ pairs.map Pair.char →
      ∃ i, i < pairs.length ∧ (v_escape_table pairs).getD b 0 = i ∧
        (pairs.map Pair.char).getD i 0 = b) ∧
    (b ∉ pairs.map Pair.char → (v_escape_table pairs).getD b 0 = pairs.length) ∧
    ∀ i, i < pairs.length →
      (v_escape_quotes pairs).getD i "" = (pairs.getD i default).quote := by
  have hspec := binary_search_go_spec (pairs.map Pair.char) hs b
    (pairs.map Pair.char).length 0 (pairs.map Pair.char).length
    (by omega) (le_refl _) (fun j hj => absurd hj (by omega))
    (fun j hj hjlen => absurd hjlen (by omega))
  rw [v_escape_table_getD pairs hb]
  refine ⟨?_, ?_, ?_⟩
  · intro hmem
    cases hfind : binary_search_by (pairs.map Pair.char) b with
    | none =>
      have hgo : binary_search_go (pairs.map Pair.char) b 0
          (pairs.map Pair.char).length = none := hfind
      exact absurd hmem (hspec.2 hgo)
    | some i =>
      have hgo : binary_search_go (pairs.map Pair.char) b 0
          (pairs.map Pair.char).length = some i := hfind
      obtain ⟨hilen, hib⟩ := hspec.1 i hgo
      rw [List.length_map] at hilen
      exact ⟨i, hilen, rfl, hib⟩
  · intro hmem
    cases hfind : binary_search_by (pairs.map Pair.char) b with
    | none => rfl
    | some i =>
      have hgo : binary_search_go (pairs.map Pair.char) b 0
          (pairs.map Pair.char).length = some i := hfind
      obtain ⟨hilen, hib⟩ := hspec.1 i hgo
      exact absurd (hib ▸ getD_mem_self hilen) hmem
  · intro i hi
    unfold v_escape_quotes
    rw [List.getD_eq_getElem _ _ (by simpa using hi),
      List.getD_eq_getElem _ _ hi]
    simp

/-- **C7** witness at a concrete pair list. -/
theorem c7_classification_table_witness :
    List.Chain' (· < ·) ([Pair.mk 60 "&lt;", Pair.mk 62 "&gt;"].map Pair.char) ∧
      (60 : Nat) < 256 ∧
      ((60 ∈ [Pair.mk 60 "&lt;", Pair.mk 62 "&gt;"].map Pair.char →
        ∃ i, i < ([Pair.mk 60 "&lt;", Pair.mk 62 "&gt;"] : List Pair).length ∧
          (v_escape_table [Pair.mk 60 "&lt;", Pair.mk 62 "&gt;"]).getD 60 0 = i ∧
          ([Pair.mk 60 "&lt;", Pair.mk 62 "&gt;"].map Pair.char).getD i 0 = 60) ∧
      (60 ∉ [Pair.mk 60 "&lt;", Pair.mk 62 "&gt;"].map Pair.char →
        (v_escape_table [Pair.mk 60 "&lt;", Pair.mk 62 "&gt;"]).getD 60 0 =
          ([Pair.mk 60 "&lt;", Pair.mk 62 "&gt;"] : List Pair).length) ∧
      ∀ i, i < ([Pair.mk 60 "&lt;", Pair.mk 62 "&gt;"] : List Pair).length →
        (v_escape_quotes [Pair.mk 60 "&lt;", Pair.mk 62 "&gt;"]).getD i "" =
          ([Pair.mk 60 "&lt;", Pair.mk 62 "&gt;"].getD i default).quote) :=
  ⟨by rw [List.chain'_iff_pairwise]; decide, by decide,
    c7_classification_table [Pair.mk 60 "&lt;", Pair.mk 62 "&gt;"]
      (by rw [List.chain'_iff_pairwise]; decide) 60 (by decide)⟩

end VEscape
